import Mathlib

/-!
Verification of the kademlia_aio Kademlia DHT node against its
natural-language specification.  The Python source is shallowly embedded:
insertion-ordered dictionaries (`collections.OrderedDict`) become
association lists whose tail is the most recently inserted entry, 160-bit
identifiers become `Nat`, fallible code returns `Except`, and the
event-driven RPC layer becomes an explicit state-transition function.
-/

namespace Kademlia

instance {ε α : Type} [DecidableEq ε] [DecidableEq α] : DecidableEq (Except ε α) := fun a b =>
  match a, b with
  | .error e, .error e' =>
    if h : e = e' then isTrue (congrArg Except.error h)
    else isFalse (fun heq => h (Except.error.inj heq))
  | .ok x, .ok y =>
    if h : x = y then isTrue (congrArg Except.ok h)
    else isFalse (fun heq => h (Except.ok.inj heq))
  | .error _, .ok _ => isFalse (fun heq => Except.noConfusion heq)
  | .ok _, .error _ => isFalse (fun heq => Except.noConfusion heq)

/-- An insertion-ordered dictionary (Python `OrderedDict`) with `Nat` keys,
modelled as an association list; the most recently inserted entry is last. -/
abbrev ODict (α : Type) := List (Nat × α)

/-- `key in d` for an ordered dictionary. -/
def odContains (l : ODict α) (key : Nat) : Bool :=
  l.any (fun e => e.1 == key)

/-- `del d[key]`: removes the entry with the given key (keys are unique in
a Python dict, so filtering removes exactly that entry). -/
def odDel (l : ODict α) (key : Nat) : ODict α :=
  l.filter (fun e => e.1 != key)

/-- `d[key] = v`: updates in place when the key is present, otherwise
appends at the tail (Python dict `__setitem__`). -/
def odSet (l : ODict α) (key : Nat) (v : α) : ODict α :=
  if odContains l key then l.map (fun e => if e.1 == key then (key, v) else e)
  else l ++ [(key, v)]

/-- Fuel-driven helper for `bitLength`; the fuel makes the recursion
structural so that concrete instances evaluate inside the kernel. -/
def bitLengthAux : Nat → Nat → Nat
  | 0, _ => 0
  | fuel + 1, n => if n = 0 then 0 else bitLengthAux fuel (n / 2) + 1

/-- Python `int.bit_length` for non-negative integers. -/
def bitLength (n : Nat) : Nat :=
  bitLengthAux n n

theorem bitLengthAux_eq : ∀ fuel n, n ≤ fuel →
    bitLengthAux fuel n = if n = 0 then 0 else Nat.log2 n + 1 := by
  intro fuel
  induction fuel with
  | zero => intro n hn; interval_cases n; rfl
  | succ fuel ih =>
    intro n hn
    match n with
    | 0 => rfl
    | 1 =>
      show bitLengthAux fuel 0 + 1 = _
      have h0 : bitLengthAux fuel 0 = 0 := by cases fuel <;> rfl
      have h1 : Nat.log2 1 = 0 := by unfold Nat.log2; simp
      simp [h0, h1]
    | m + 2 =>
      have hdiv : (m + 2) / 2 ≤ fuel := by
        have := Nat.div_lt_self (show 0 < m + 2 by omega) (show 1 < 2 by omega)
        omega
      have hdiv0 : 0 < (m + 2) / 2 := Nat.div_pos (by omega) (by omega)
      have hlog : Nat.log2 (m + 2) = Nat.log2 ((m + 2) / 2) + 1 := by
        conv_lhs => unfold Nat.log2
        rw [if_pos (by omega)]
      show (if m + 2 = 0 then 0 else bitLengthAux fuel ((m + 2) / 2) + 1) = _
      rw [if_neg (by omega), if_neg (by omega), ih _ hdiv, if_neg (by omega), hlog]

/-- `bitLength` agrees with `Nat.log2` on positive inputs. -/
theorem bitLength_eq (n : Nat) : bitLength n = if n = 0 then 0 else Nat.log2 n + 1 :=
  bitLengthAux_eq n n (Nat.le_refl n)

theorem bitLength_le {n m : Nat} (h : n < 2 ^ m) : bitLength n ≤ m := by
  rw [bitLength_eq]
  split
  · exact Nat.zero_le m
  · next hne => exact (Nat.log2_lt hne).mpr h

theorem bitLength_pos {n : Nat} (h : n ≠ 0) : 1 ≤ bitLength n := by
  rw [bitLength_eq, if_neg h]; omega

/-- Errors raised by the routing-table code: `ValueError` from
`bucket_index` for identifiers outside `[0, 2^160)`, and `IndexError`
from indexing the 160-element bucket array out of range. -/
inductive RTError : Type where
  | valueError : RTError
  | indexError : RTError
deriving DecidableEq, Repr

/-- The routing table: a node identifier, the constant `k`, 160 buckets and
160 replacement caches (both insertion-ordered dictionaries). -/
structure RoutingTable (α : Type) : Type where
  node_identifier : Nat
  k : Nat
  buckets : List (ODict α)
  replacement_caches : List (ODict α)
deriving DecidableEq, Repr

/-- `RoutingTable.__init__`: 160 empty buckets and replacement caches. -/
def mkRoutingTable (α : Type) (node_identifier : Nat) (k : Nat) : RoutingTable α :=
  { node_identifier := node_identifier
    k := k
    buckets := List.replicate 160 []
    replacement_caches := List.replicate 160 [] }

/-- `RoutingTable.distance`: XOR distance from the node. -/
def RoutingTable.distance (t : RoutingTable α) (peer_identifier : Nat) : Nat :=
  t.node_identifier ^^^ peer_identifier

/-- `RoutingTable.bucket_index`: `160 - bit_length(self XOR p)`, raising
`ValueError` outside `[0, 2^160)`. -/
def RoutingTable.bucket_index (t : RoutingTable α) (peer_identifier : Nat) :
    Except RTError Nat :=
  if peer_identifier < 2 ^ 160 then
    .ok (160 - bitLength (t.distance peer_identifier))
  else .error .valueError

/-- `RoutingTable.update_peer`: move-to-tail when known, insert when the
bucket has room, otherwise push to the tail of the replacement cache. -/
def RoutingTable.update_peer (t : RoutingTable α) (peer_identifier : Nat) (peer : α) :
    Except RTError (RoutingTable α) :=
  if peer_identifier = t.node_identifier then .ok t
  else
    match t.bucket_index peer_identifier with
    | .error e => .error e
    | .ok bi =>
      match t.buckets[bi]?, t.replacement_caches[bi]? with
      | some bucket, some cache =>
        if odContains bucket peer_identifier then
          .ok { t with buckets := t.buckets.set bi (odSet (odDel bucket peer_identifier) peer_identifier peer) }
        else if bucket.length < t.k then
          .ok { t with buckets := t.buckets.set bi (odSet bucket peer_identifier peer) }
        else
          .ok { t with replacement_caches := t.replacement_caches.set bi (odSet (if odContains cache peer_identifier then odDel cache peer_identifier else cache) peer_identifier peer) }
      | _, _ => .error .indexError

/-- `RoutingTable.forget_peer`: remove a peer if present and promote the
most recently inserted replacement-cache entry, if any. -/
def RoutingTable.forget_peer (t : RoutingTable α) (peer_identifier : Nat) :
    Except RTError (RoutingTable α) :=
  if peer_identifier = t.node_identifier then .ok t
  else
    match t.bucket_index peer_identifier with
    | .error e => .error e
    | .ok bi =>
      match t.buckets[bi]?, t.replacement_caches[bi]? with
      | some bucket, some cache =>
        if odContains bucket peer_identifier then
          match cache.getLast? with
          | some repl =>
            .ok { t with buckets := t.buckets.set bi (odSet (odDel bucket peer_identifier) repl.1 repl.2)
                         replacement_caches := t.replacement_caches.set bi cache.dropLast }
          | none => .ok { t with buckets := t.buckets.set bi (odDel bucket peer_identifier) }
        else .ok t
      | _, _ => .error .indexError

/-- `itertools.zip_longest(farther, closer)` flattened in the order the
inner `for i in (f, c)` loop visits the indices (`None` entries skipped). -/
def interleave : List Nat → List Nat → List Nat
  | [], ys => ys
  | x :: xs, [] => x :: interleave xs []
  | x :: xs, y :: ys => x :: y :: interleave xs ys

/-- `range(bucket_index(key), -1, -1)`. -/
def fartherRange (bi : Nat) : List Nat :=
  (List.range (bi + 1)).reverse

/-- `range(bucket_index(key) + 1, 160, 1)`. -/
def closerRange (bi : Nat) : List Nat :=
  List.range' (bi + 1) (160 - (bi + 1))

/-- Whether a peer identifier equals the optional `excluding` argument
(`peer_identifier == excluding` in Python; always false for `None`). -/
def isExcluded (excluding : Option Nat) (pid : Nat) : Bool :=
  some pid == excluding

/-- The inner collection loop of `find_closest_peers` over one bucket's
entries (already reversed to most-recent-first): append each non-excluded
peer, returning early with `true` once `k` peers are collected. -/
def collectBucket (excluding : Option Nat) (k : Nat) (acc : List (Nat × α)) :
    List (Nat × α) → List (Nat × α) × Bool
  | [] => (acc, false)
  | e :: rest =>
    if isExcluded excluding e.1 then collectBucket excluding k acc rest
    else
      let acc2 := acc ++ [e]
      if acc2.length = k then (acc2, true)
      else collectBucket excluding k acc2 rest

/-- The outer sweep of `find_closest_peers` over bucket indices; indexing
past the end of the bucket array raises `IndexError`. -/
def sweep (buckets : List (ODict α)) (excluding : Option Nat) (k : Nat) :
    List Nat → List (Nat × α) → Except RTError (List (Nat × α))
  | [], acc => .ok acc
  | i :: rest, acc =>
    match buckets[i]? with
    | none => .error .indexError
    | some bucket =>
      match collectBucket excluding k acc bucket.reverse with
      | (acc2, true) => .ok acc2
      | (acc2, false) => sweep buckets excluding k rest acc2

/-- `RoutingTable.find_closest_peers(key, excluding=None, k=None)`.  Note
`k = k or self.k`: both `None` and `0` fall back to `self.k`. -/
def RoutingTable.find_closest_peers (t : RoutingTable α) (key : Nat)
    (excluding : Option Nat) (kArg : Option Nat) :
    Except RTError (List (Nat × α)) :=
  let kEff := match kArg with
    | none => t.k
    | some 0 => t.k
    | some (n + 1) => n + 1
  match t.bucket_index key with
  | .error e => .error e
  | .ok bi => sweep t.buckets excluding kEff (interleave (fartherRange bi) (closerRange bi)) []

/-- Test-harness glue: fold `update_peer` over a list of peers, keeping the
table unchanged if an update raises. -/
def insertAll (t : RoutingTable α) (ps : List (Nat × α)) : RoutingTable α :=
  ps.foldl (fun t e => ((t.update_peer e.1 e.2).toOption).getD t) t

/-- The concrete table of spec scenario 3 / `test_finding_peers`:
`self = 0b0000, k = 5`, identifiers 1,2,3,4,6,7,8,9 inserted in order. -/
def scenario3Table : RoutingTable String :=
  insertAll (mkRoutingTable String 0 5)
    [(1, "one"), (2, "two"), (3, "three"), (4, "four"),
     (6, "six"), (7, "seven"), (8, "eight"), (9, "nine")]

set_option maxRecDepth 100000 in
/-- C5: For a routing table with node identifier 0b0000 and k = 5 holding
identifiers 1,2,3,4,6,7,8,9 (inserted in that order),
`find_closest_peers(0b0101)` returns exactly the peers 7, 6, 4, 3, 2 in
that order: the alternating outward sweep with most-recent-first iteration
inside each bucket. -/
theorem closest_peers_scenario :
    scenario3Table.find_closest_peers 5 none none =
      .ok [(7, "seven"), (6, "six"), (4, "four"), (3, "three"), (2, "two")] := by
  decide

theorem interleave_nil_right : ∀ xs : List Nat, interleave xs [] = xs
  | [] => rfl
  | x :: xs => by rw [interleave, interleave_nil_right xs]

/-- C9 (part 1): for every 160-bucket routing table whose node identifier
is a valid 160-bit value, `find_closest_peers` applied to the node's own
identifier hits the sentinel bucket index 160 and raises `IndexError`
before returning any peers. -/
theorem find_closest_peers_self_key {α : Type} (t : RoutingTable α)
    (excluding : Option Nat) (kArg : Option Nat)
    (hlen : t.buckets.length = 160) (hself : t.node_identifier < 2 ^ 160) :
    t.find_closest_peers t.node_identifier excluding kArg = .error .indexError := by
  have hidx : t.bucket_index t.node_identifier = .ok 160 := by
    rw [RoutingTable.bucket_index, if_pos hself, RoutingTable.distance, Nat.xor_self]
    rfl
  have hcloser : closerRange 160 = [] := rfl
  have hfarther : fartherRange 160 = 160 :: (List.range 160).reverse := by
    rw [fartherRange, List.range_succ, List.reverse_append]
    rfl
  have hnone : t.buckets[(160 : Nat)]? = none := List.getElem?_eq_none (by omega)
  simp only [RoutingTable.find_closest_peers, hidx, hcloser, hfarther,
    interleave_nil_right, sweep, hnone]

/-- Network addresses: `(ip, port)` pairs. -/
abbrev Addr := String × Nat

/-- The resolution of a pending request's future: `set_result(answer)` or
`set_exception(socket.timeout)`. -/
inductive Resolution (V : Type) : Type where
  | answer : V → Resolution V
  | timedOut : Resolution V
deriving DecidableEq, Repr

/-- The mutable state of a `DatagramRPCProtocol`: which message ids are
pending, the resolutions performed so far (each `pop` of a pending entry
resolves its future exactly once), and the configured reply timeout. -/
structure RPCState (V : Type) : Type where
  outstanding_requests : List Nat
  resolutions : List (Nat × Resolution V)
  reply_timeout : Nat
deriving DecidableEq, Repr

/-- `DatagramRPCProtocol.__init__(reply_timeout=5)`. -/
def mkRPCState (V : Type) (reply_timeout : Nat) : RPCState V :=
  { outstanding_requests := [], resolutions := [], reply_timeout := reply_timeout }

/-- `self.outstanding_requests.pop(message_identifier)` followed by
resolving the popped future: the key leaves the pending table and the
resolution is recorded. -/
def popResolve (s : RPCState V) (message_identifier : Nat) (res : Resolution V) : RPCState V :=
  { s with
      outstanding_requests := s.outstanding_requests.filter (fun m => m != message_identifier)
      resolutions := s.resolutions ++ [(message_identifier, res)] }

/-- `DatagramRPCProtocol.reply_received`: if the message id is pending,
pop it and resolve its future with the answer; otherwise do nothing. -/
def reply_received (s : RPCState V) (message_identifier : Nat) (answer : V) : RPCState V :=
  if s.outstanding_requests.any (fun m => m == message_identifier) then
    popResolve s message_identifier (.answer answer)
  else s

/-- `DatagramRPCProtocol.reply_timed_out`: if the message id is pending,
pop it and resolve its future with `socket.timeout`. -/
def reply_timed_out (s : RPCState V) (message_identifier : Nat) : RPCState V :=
  if s.outstanding_requests.any (fun m => m == message_identifier) then
    popResolve s message_identifier .timedOut
  else s

/-- The registration performed by `DatagramRPCProtocol.request`:
`self.outstanding_requests[message_identifier] = reply`. -/
def request (s : RPCState V) (message_identifier : Nat) : RPCState V :=
  { s with outstanding_requests := s.outstanding_requests ++ [message_identifier] }

/-- An event observed for a pending request: a reply datagram or the
scheduled timeout firing. -/
inductive RPCEvent (V : Type) : Type where
  | reply : Nat → V → RPCEvent V
  | fire : Nat → RPCEvent V

/-- One event-loop callback acting on the pending-request table. -/
def rpcStep (s : RPCState V) : RPCEvent V → RPCState V
  | .reply mid answer => reply_received s mid answer
  | .fire mid => reply_timed_out s mid

/-- How many resolutions the state records for a message id. -/
def resCount (s : RPCState V) (mid : Nat) : Nat :=
  (s.resolutions.filter (fun e => e.1 == mid)).length

/-- Whether a message id is still pending. -/
def isPending (s : RPCState V) (mid : Nat) : Bool :=
  s.outstanding_requests.any (fun m => m == mid)

theorem filter_ne_any_eq_false (l : List Nat) (mid : Nat) :
    (l.filter (fun m => m != mid)).any (fun m => m == mid) = false := by
  rw [List.any_eq_false]
  intro x hx
  rcases List.mem_filter.mp hx with ⟨_, hne⟩
  intro hc
  have hx1 : x = mid := by simpa using hc
  rw [hx1] at hne
  simp at hne

theorem any_filter_ne (l : List Nat) (a b : Nat) (h : a ≠ b) :
    (l.filter (fun m => m != a)).any (fun m => m == b) = l.any (fun m => m == b) := by
  induction l with
  | nil => rfl
  | cons x xs ih =>
    by_cases hx : x = a
    · subst hx
      have hb : (x == b) = false := by simpa using h
      simp [List.filter_cons, List.any_cons, hb, ih]
    · simp [List.filter_cons, hx, List.any_cons, ih]

theorem isPending_popResolve_self (s : RPCState V) (mid : Nat) (res : Resolution V) :
    isPending (popResolve s mid res) mid = false :=
  filter_ne_any_eq_false _ _

theorem isPending_popResolve_ne (s : RPCState V) (mid mid' : Nat) (res : Resolution V)
    (h : mid' ≠ mid) : isPending (popResolve s mid' res) mid = isPending s mid :=
  any_filter_ne _ _ _ h

theorem resCount_popResolve_self (s : RPCState V) (mid : Nat) (res : Resolution V) :
    resCount (popResolve s mid res) mid = resCount s mid + 1 := by
  simp [resCount, popResolve, List.filter_append, List.filter_cons]

theorem resCount_popResolve_ne (s : RPCState V) (mid mid' : Nat) (res : Resolution V)
    (h : mid' ≠ mid) : resCount (popResolve s mid' res) mid = resCount s mid := by
  simp [resCount, popResolve, List.filter_append, List.filter_cons, h]

theorem rpcStep_measure (s : RPCState V) (mid : Nat) (ev : RPCEvent V)
    (h : resCount s mid + (if isPending s mid then 1 else 0) ≤ 1) :
    resCount (rpcStep s ev) mid + (if isPending (rpcStep s ev) mid then 1 else 0) ≤ 1 := by
  have key : ∀ (res : Resolution V) (mid' : Nat), isPending s mid' = true →
      resCount (popResolve s mid' res) mid
        + (if isPending (popResolve s mid' res) mid then 1 else 0) ≤ 1 := by
    intro res mid' hp
    by_cases hmid : mid' = mid
    · subst hmid
      rw [resCount_popResolve_self, isPending_popResolve_self,
        if_neg Bool.false_ne_true]
      rw [hp, if_pos rfl] at h
      omega
    · rw [resCount_popResolve_ne _ _ _ _ hmid, isPending_popResolve_ne _ _ _ _ hmid]
      exact h
  cases ev with
  | reply mid' answer =>
    rw [rpcStep, reply_received]
    split
    · next hp => exact key (.answer answer) mid' hp
    · exact h
  | fire mid' =>
    rw [rpcStep, reply_timed_out]
    split
    · next hp => exact key .timedOut mid' hp
    · exact h

theorem rpc_run_measure (evs : List (RPCEvent V)) : ∀ (s : RPCState V) (mid : Nat),
    resCount s mid + (if isPending s mid then 1 else 0) ≤ 1 →
    resCount (evs.foldl rpcStep s) mid
      + (if isPending (evs.foldl rpcStep s) mid then 1 else 0) ≤ 1 := by
  induction evs with
  | nil => intro s mid h; exact h
  | cons ev evs ih =>
    intro s mid h
    exact ih (rpcStep s ev) mid (rpcStep_measure s mid ev h)

/-- C7: a message id registered by `request()` is resolved at most once
across every interleaving of reply and timeout events: the run from the
freshly registered state records at most one resolution for the id, a
reply for an id that is no longer pending leaves the state untouched
(silently dropped), and after the timeout fires the id is never pending. -/
theorem reply_resolved_once {V : Type} (mid tmo : Nat) (ans : V)
    (evs : List (RPCEvent V)) :
    resCount (evs.foldl rpcStep (request (mkRPCState V tmo) mid)) mid ≤ 1
    ∧ (∀ s : RPCState V, isPending s mid = false → reply_received s mid ans = s)
    ∧ (∀ s : RPCState V, isPending (reply_timed_out s mid) mid = false) := by
  refine ⟨?_, ?_, ?_⟩
  · have h0 : resCount (request (mkRPCState V tmo) mid) mid
        + (if isPending (request (mkRPCState V tmo) mid) mid then 1 else 0) ≤ 1 := by
      simp [resCount, isPending, request, mkRPCState]
    have := rpc_run_measure evs _ mid h0
    omega
  · intro s hs
    rw [reply_received]
    rw [isPending] at hs
    rw [hs, if_neg Bool.false_ne_true]
  · intro s
    rw [reply_timed_out]
    split
    · exact isPending_popResolve_self _ _ _
    · next hs =>
      have hfalse : (s.outstanding_requests.any fun m => m == mid) = false := by
        cases hB : s.outstanding_requests.any fun m => m == mid
        · rfl
        · exact absurd hB hs
      exact hfalse

/-- A peer record: `(identifier, (ip, port))`. -/
abbrev Peer := Nat × Addr

/-- Python `set.add`: the element is inserted only if absent.  New elements
go to the tail so that list order tracks insertion order. -/
def insertP (l : List Peer) (p : Peer) : List Peer :=
  if p ∈ l then l else l ++ [p]

/-- XOR distance of a peer from the looked-up key
(`distance = lambda peer: peer[0] ^ hashed_key`). -/
def xorDistance (key : Nat) (p : Peer) : Nat :=
  p.1 ^^^ key

/-- `sorted(uncontacted, key=distance)`: a stable sort by XOR distance. -/
def sortByDistance (key : Nat) (l : List Peer) : List Peer :=
  l.insertionSort (fun p q => xorDistance key p ≤ xorDistance key q)

/-- The loop state of `lookup_node`: the candidate, contacted and dead
peer sets plus the sequence of probed addresses (one per `find_node` /
`find_value` invocation). -/
structure LookupAcc : Type where
  peers : List Peer
  contacted : List Peer
  dead : List Peer
  calls : List Addr
deriving DecidableEq, Repr

/-- The `for new_peer_identifier, new_peer in contacts` loop of
`lookup_node`: every returned contact other than the node itself joins
the candidate set. -/
def addContacts (selfId : Nat) : List Peer → List Peer → List Peer
  | ps, [] => ps
  | ps, c :: cs => addContacts selfId (if c.1 = selfId then ps else insertP ps c) cs

/-- One round's inner `for peer_identifier, peer in closest` loop of
`lookup_node` (find_node mode): contact each probe in order; a `none`
reply is a `socket.timeout` (the peer joins `dead`), otherwise the
returned contacts join `peers`. -/
def probeRound (selfId : Nat) (topo : Addr → Option (List Peer)) :
    LookupAcc → List Peer → LookupAcc
  | st, [] => st
  | st, p :: rest =>
    match topo p.2 with
    | none =>
      probeRound selfId topo
        { peers := st.peers, contacted := insertP st.contacted p,
          dead := insertP st.dead p, calls := st.calls ++ [p.2] } rest
    | some contacts =>
      probeRound selfId topo
        { peers := addContacts selfId st.peers contacts,
          contacted := insertP st.contacted p,
          dead := st.dead, calls := st.calls ++ [p.2] } rest

/-- `peers - contacted`, in candidate order. -/
def uncontactedOf (st : LookupAcc) : List Peer :=
  st.peers.filter (fun p => !decide (p ∈ st.contacted))

/-- One iteration of the `while True` loop of `lookup_node`: probe the α
uncontacted peers closest to the key. -/
def lookupRound (selfId alpha key : Nat) (topo : Addr → Option (List Peer))
    (st : LookupAcc) : LookupAcc :=
  probeRound selfId topo st ((sortByDistance key (uncontactedOf st)).take alpha)

/-- The `while True` loop of `lookup_node`, one fuel unit per iteration:
stop when every candidate has been contacted. -/
def lookupLoop (selfId alpha key : Nat) (topo : Addr → Option (List Peer)) :
    Nat → LookupAcc → Option LookupAcc
  | 0, _ => none
  | fuel + 1, st =>
    if (uncontactedOf st).isEmpty then some st
    else lookupLoop selfId alpha key topo fuel (lookupRound selfId alpha key topo st)

/-- How `lookup_node(hashed_key, find_value=False)` ends: an exception
propagated from the seeding `find_closest_peers` call, the
`KeyError('No peers available.')`, or a normal return. -/
inductive LookupOutcome : Type where
  | tableRaise : RTError → LookupOutcome
  | noPeersRaise : LookupOutcome
  | returned : List Peer → LookupOutcome
deriving DecidableEq, Repr

/-- `KademliaNode.lookup_node(hashed_key, find_value=False)`.  `closest`
stands for `self.routing_table.find_closest_peers` (mocked in the tests),
`topo` for the network's `find_node` replies keyed by peer address
(`none` = timeout).  Returns the outcome and the probed addresses;
`none` means the fuel ran out before the loop exited. -/
def lookup_node (fuel selfId alpha k : Nat)
    (closest : Nat → Except RTError (List Peer))
    (topo : Addr → Option (List Peer)) (hashed_key : Nat) :
    Option (LookupOutcome × List Addr) :=
  match closest hashed_key with
  | .error e => some (.tableRaise e, [])
  | .ok seeds =>
    let peers := seeds.foldl insertP []
    if peers.isEmpty then some (.noPeersRaise, [])
    else
      match lookupLoop selfId alpha hashed_key topo fuel
          { peers := peers, contacted := [], dead := [], calls := [] } with
      | none => none
      | some st =>
        some (.returned ((sortByDistance hashed_key
            (st.peers.filter (fun p => !decide (p ∈ st.dead)))).take k), st.calls)

/-- The state of a `KademliaNode`: configuration, routing table, value
store and the inherited RPC-protocol state. -/
structure KademliaState (V : Type) : Type where
  identifier : Nat
  k : Nat
  alpha : Nat
  routing_table : RoutingTable Addr
  storage : ODict V
  rpc : RPCState V
deriving DecidableEq, Repr

/-- The parameter names of `KademliaNode.__init__(self, alpha=3, k=20,
identifier=None)`. -/
def kademlia_init_params : List String :=
  ["alpha", "k", "identifier"]

/-- `KademliaNode.__init__`: `none` for an argument means it was omitted
and the Python default applies; `random_identifier` is the value
`get_random_identifier()` would produce when `identifier` is omitted.
`super().__init__()` is invoked with no arguments, so the base class's
`reply_timeout=5` default always applies. -/
def kademlia_init (V : Type) (alpha k identifier : Option Nat) (random_identifier : Nat) :
    KademliaState V :=
  let ident := identifier.getD random_identifier
  let kk := k.getD 20
  { identifier := ident
    k := kk
    alpha := alpha.getD 3
    routing_table := mkRoutingTable Addr ident kk
    storage := []
    rpc := mkRPCState V 5 }

/-- `KademliaNode.find_node` reply function: the k-closest peers the node
knows, excluding the requesting peer. -/
def find_node_reply (st : KademliaState V) (peer : Addr) (peer_identifier key : Nat) :
    Except RTError (Nat × List (Nat × Addr)) :=
  match st.routing_table.find_closest_peers key (some peer_identifier) none with
  | .error e => .error e
  | .ok peers => .ok (st.identifier, peers)

/-- `d[key]` as an optional lookup; `key in d` holds iff this is `some`. -/
def odGet (l : ODict α) (key : Nat) : Option α :=
  (l.find? (fun e => e.1 == key)).map (fun e => e.2)

/-- The payload of a `find_value` reply: `('found', value)` or
`('notfound', peers)`. -/
inductive FindValueAnswer (V : Type) : Type where
  | found : V → FindValueAnswer V
  | notfound : List (Nat × Addr) → FindValueAnswer V
deriving DecidableEq, Repr

/-- `KademliaNode.find_value` reply function. -/
def find_value_reply (st : KademliaState V) (peer : Addr) (peer_identifier key : Nat) :
    Except RTError (Nat × FindValueAnswer V) :=
  match odGet st.storage key with
  | some v => .ok (st.identifier, .found v)
  | none =>
    match st.routing_table.find_closest_peers key (some peer_identifier) none with
    | .error e => .error e
    | .ok peers => .ok (st.identifier, .notfound peers)

/-- `KademliaNode.reply_received`: unpack `(sender_id, payload)`, update
the routing table with the sender, then run the base-class handler on the
payload. -/
def kademlia_reply_received (st : KademliaState V) (peer : Addr) (message_identifier : Nat)
    (answer : Nat × V) : Except RTError (KademliaState V) :=
  match st.routing_table.update_peer answer.1 peer with
  | .error e => .error e
  | .ok rt =>
    .ok { st with
            routing_table := rt
            rpc := reply_received st.rpc message_identifier answer.2 }

/-- C9: querying `find_closest_peers` with the node's own identifier is
not total: `bucket_index` returns the sentinel 160, which indexes past the
160-element bucket array and raises `IndexError` before any peer is
returned; consequently the `find_node` handler, the `find_value` handler
(when the key is not stored locally) and `lookup_node` all fail when the
looked-up key equals the node's own identifier. -/
theorem self_key_query_raises :
    (∀ (α : Type) (t : RoutingTable α) (excluding kArg : Option Nat),
        t.buckets.length = 160 → t.node_identifier < 2 ^ 160 →
        t.find_closest_peers t.node_identifier excluding kArg = .error .indexError)
    ∧ (∀ (V : Type) (st : KademliaState V) (peer : Addr) (sender_id : Nat),
        st.routing_table.buckets.length = 160 →
        st.routing_table.node_identifier < 2 ^ 160 →
        find_node_reply st peer sender_id st.routing_table.node_identifier
          = .error .indexError)
    ∧ (∀ (V : Type) (st : KademliaState V) (peer : Addr) (sender_id : Nat),
        st.routing_table.buckets.length = 160 →
        st.routing_table.node_identifier < 2 ^ 160 →
        odGet st.storage st.routing_table.node_identifier = none →
        find_value_reply st peer sender_id st.routing_table.node_identifier
          = .error .indexError)
    ∧ (∀ (V : Type) (st : KademliaState V) (fuel alpha : Nat)
        (topo : Addr → Option (List Peer)),
        st.routing_table.buckets.length = 160 →
        st.routing_table.node_identifier < 2 ^ 160 →
        lookup_node fuel st.identifier alpha st.k
          (fun key => st.routing_table.find_closest_peers key none none) topo
          st.routing_table.node_identifier
          = some (.tableRaise .indexError, [])) := by
  refine ⟨fun α t ex kArg hlen hself => find_closest_peers_self_key t ex kArg hlen hself,
    ?_, ?_, ?_⟩
  · intro V st peer sid hlen hself
    rw [find_node_reply, find_closest_peers_self_key _ _ _ hlen hself]
  · intro V st peer sid hlen hself hmiss
    rw [find_value_reply, hmiss, find_closest_peers_self_key _ _ _ hlen hself]
  · intro V st fuel alpha topo hlen hself
    rw [lookup_node, find_closest_peers_self_key _ _ _ hlen hself]

/-- Witness for C9 at a concrete table: node identifier 7, `k = 20`,
empty buckets. -/
theorem self_key_query_raises_witness :
    (mkRoutingTable String 7 20).find_closest_peers 7 none none = .error .indexError :=
  self_key_query_raises.1 String (mkRoutingTable String 7 20) none none
    (by simp [mkRoutingTable]) (by decide)

/-- C3 counterexample: `reply_timeout` is not among the parameters of
`KademliaNode.__init__`, and however the constructor is invoked, the
constructed node's `reply_timeout` is the base-class default 5. -/
theorem kademlia_init_no_reply_timeout_arg :
    kademlia_init_params.contains "reply_timeout" = false
    ∧ (kademlia_init Bool none none none 7).rpc.reply_timeout = 5
    ∧ (kademlia_init Bool (some 1) (some 2) (some 3) 7).rpc.reply_timeout = 5 :=
  ⟨rfl, rfl, rfl⟩

/-- C3 (amended): the constructor accepts the optional arguments `alpha`
(default 3), `k` (default 20) and `identifier` (default a fresh random
160-bit identifier), each taking effect on the constructed node;
`reply_timeout` is not a constructor argument — the node always starts
with the base-class default of 5 seconds. -/
theorem kademlia_init_options (V : Type) (alpha k identifier : Option Nat) (r : Nat) :
    kademlia_init_params = ["alpha", "k", "identifier"]
    ∧ (kademlia_init V alpha k identifier r).alpha = alpha.getD 3
    ∧ (kademlia_init V alpha k identifier r).k = k.getD 20
    ∧ (kademlia_init V alpha k identifier r).identifier = identifier.getD r
    ∧ (kademlia_init V alpha k identifier r).routing_table
        = mkRoutingTable Addr (identifier.getD r) (k.getD 20)
    ∧ (kademlia_init V alpha k identifier r).rpc.reply_timeout = 5 :=
  ⟨rfl, rfl, rfl, rfl, rfl, rfl⟩

/-- C10: for every reply datagram a Kademlia node processes, the routing
table is updated with the sender's identifier and observed address before
the pending-request table is consulted; when the message id is not
pending (late or unknown reply) the RPC state — and with it the
caller-visible completion — is left unchanged, while the other node
fields are never touched by a reply. -/
theorem reply_received_updates_table {V : Type} (st st' : KademliaState V) (peer : Addr)
    (mid pid : Nat) (payload : V)
    (h : kademlia_reply_received st peer mid (pid, payload) = .ok st') :
    st.routing_table.update_peer pid peer = .ok st'.routing_table
    ∧ st'.identifier = st.identifier ∧ st'.k = st.k ∧ st'.alpha = st.alpha
    ∧ st'.storage = st.storage
    ∧ (isPending st.rpc mid = false → st'.rpc = st.rpc) := by
  dsimp only [kademlia_reply_received] at h
  cases hup : st.routing_table.update_peer pid peer with
  | error e =>
    rw [hup] at h
    cases h
  | ok rt =>
    rw [hup] at h
    rw [Except.ok.injEq] at h
    subst h
    refine ⟨rfl, rfl, rfl, rfl, rfl, ?_⟩
    intro hp
    show reply_received st.rpc mid payload = st.rpc
    rw [isPending] at hp
    rw [reply_received, hp, if_neg Bool.false_ne_true]

/-- The concrete node of the C10 witness, before and after the reply. -/
def lateReplyNode : KademliaState Bool :=
  kademlia_init Bool none none (some 0) 0

def lateReplyNode' : KademliaState Bool :=
  { lateReplyNode with routing_table :=
      { lateReplyNode.routing_table with
          buckets := (List.replicate 160 ([] : ODict Addr)).set 158 [(3, ("1.2.3.4", 9))] } }

set_option maxRecDepth 100000 in
/-- Witness for C10: a reply with an unknown message id still inserts the
sender into the routing table while leaving the RPC state unchanged. -/
theorem reply_received_updates_table_witness :
    kademlia_reply_received lateReplyNode ("1.2.3.4", 9) 5 (3, true) = .ok lateReplyNode'
    ∧ isPending lateReplyNode.rpc 5 = false
    ∧ lateReplyNode.routing_table.update_peer 3 ("1.2.3.4", 9) = .ok lateReplyNode'.routing_table
    ∧ lateReplyNode'.rpc = lateReplyNode.rpc := by
  have h : kademlia_reply_received lateReplyNode ("1.2.3.4", 9) 5 (3, true)
      = .ok lateReplyNode' := by decide
  have hp : isPending lateReplyNode.rpc 5 = false := rfl
  have hmain := reply_received_updates_table lateReplyNode lateReplyNode'
    ("1.2.3.4", 9) 5 3 true h
  exact ⟨h, hp, hmain.1, hmain.2.2.2.2.2 hp⟩

/-- The seed peers of spec scenario 5 / `test_lookup_node`: the mocked
`find_closest_peers` returns ids 1001 and 2001. -/
def deadPeerSeeds : List Peer :=
  [(1001, ("10.1.0.1", 1001)), (2001, ("10.2.0.1", 2001))]

/-- The pre-programmed topology of spec scenario 5: every peer replies
with its fixed contact list, except `10.1.0.3:1003`, which times out. -/
def deadPeerTopo : Addr → Option (List Peer) := fun a =>
  if a = ("10.1.0.1", 1001) then
    some [(1002, ("10.1.0.2", 1002)), (1003, ("10.1.0.3", 1003)), (123, ("127.0.0.1", 123))]
  else if a = ("10.2.0.1", 2001) then
    some [(2002, ("10.2.0.2", 2002)), (2003, ("10.2.0.3", 2003))]
  else if a = ("10.1.0.2", 1002) then
    some [(1001, ("10.1.0.1", 1001)), (2003, ("10.2.0.3", 2003))]
  else if a = ("10.1.0.3", 1003) then none
  else if a = ("10.2.0.2", 2002) then
    some [(2001, ("10.2.0.1", 2001)), (2003, ("10.2.0.3", 2003))]
  else if a = ("10.2.0.3", 2003) then
    some [(2001, ("10.2.0.1", 2001)), (1001, ("10.1.0.1", 1001))]
  else none

set_option maxRecDepth 1000000 in
/-- C1: with node identifier 123, k = 4, seeds 1001 and 2001, and the dead
peer `10.1.0.3:1003`, `lookup_node(1500, find_value=False)` returns
exactly `[(2001,…), (2002,…), (2003,…), (1001,…)]` in ascending XOR
distance from 1500, and `find_node` is invoked exactly six times — once
per discovered peer including the dead one, in the order the test
asserts. -/
theorem lookup_dead_peer_scenario :
    lookup_node 10 123 3 4 (fun key => .ok deadPeerSeeds) deadPeerTopo 1500
      = some (.returned [(2001, ("10.2.0.1", 2001)), (2002, ("10.2.0.2", 2002)),
          (2003, ("10.2.0.3", 2003)), (1001, ("10.1.0.1", 1001))],
        [("10.2.0.1", 2001), ("10.1.0.1", 1001), ("10.2.0.2", 2002),
         ("10.2.0.3", 2003), ("10.1.0.2", 1002), ("10.1.0.3", 1003)])
    ∧ (lookup_node 10 123 3 4 (fun key => .ok deadPeerSeeds) deadPeerTopo 1500).map
        (fun r => r.2.length) = some 6 := by
  exact ⟨by decide, by decide⟩

theorem mem_insertP {l : List Peer} {p q : Peer} : q ∈ insertP l p ↔ q ∈ l ∨ q = p := by
  rw [insertP]
  split
  · next hp =>
    constructor
    · exact fun h => Or.inl h
    · intro h
      cases h with
      | inl h => exact h
      | inr h => exact h ▸ hp
  · simp

theorem insertP_subset (l : List Peer) (p : Peer) : l ⊆ insertP l p :=
  fun _ hq => mem_insertP.mpr (Or.inl hq)

theorem insertP_nodup {l : List Peer} (p : Peer) (h : l.Nodup) : (insertP l p).Nodup := by
  rw [insertP]
  split
  · exact h
  · next hp =>
    refine List.Nodup.append h (List.nodup_singleton p) ?_
    intro a ha hb
    have hab : a = p := by simpa using hb
    exact hp (hab ▸ ha)

theorem insertP_length_of_not_mem {l : List Peer} {p : Peer} (h : p ∉ l) :
    (insertP l p).length = l.length + 1 := by
  rw [insertP, if_neg h]
  simp

theorem addContacts_subset (selfId : Nat) :
    ∀ (contacts ps : List Peer), ps ⊆ addContacts selfId ps contacts := by
  intro contacts
  induction contacts with
  | nil => intro ps; exact fun _ h => h
  | cons c cs ih =>
    intro ps
    rw [addContacts]
    refine List.Subset.trans ?_ (ih _)
    split
    · exact fun _ h => h
    · exact insertP_subset ps c

theorem addContacts_nodup (selfId : Nat) :
    ∀ (contacts ps : List Peer), ps.Nodup → (addContacts selfId ps contacts).Nodup := by
  intro contacts
  induction contacts with
  | nil => intro ps h; exact h
  | cons c cs ih =>
    intro ps h
    rw [addContacts]
    refine ih _ ?_
    split
    · exact h
    · exact insertP_nodup c h

theorem addContacts_mem (selfId : Nat) :
    ∀ (contacts ps : List Peer) (q : Peer),
      q ∈ addContacts selfId ps contacts → q ∈ ps ∨ q ∈ contacts := by
  intro contacts
  induction contacts with
  | nil => intro ps q h; exact Or.inl h
  | cons c cs ih =>
    intro ps q h
    rw [addContacts] at h
    rcases ih _ q h with h1 | h1
    · by_cases hc : c.1 = selfId
      · rw [if_pos hc] at h1
        exact Or.inl h1
      · rw [if_neg hc] at h1
        rcases mem_insertP.mp h1 with h2 | h2
        · exact Or.inl h2
        · exact Or.inr (h2 ▸ List.mem_cons_self c cs)
    · exact Or.inr (List.mem_cons_of_mem c h1)

/-- The invariant that the `lookup_node` loop maintains relative to the
finite universe `U` of peers the topology can mention. -/
def LookupInv (U : List Peer) (st : LookupAcc) : Prop :=
  st.peers.Nodup ∧ st.contacted.Nodup
    ∧ (∀ p ∈ st.peers, p ∈ U) ∧ (∀ p ∈ st.contacted, p ∈ U)

theorem probeRound_spec (selfId : Nat) (topo : Addr → Option (List Peer)) (U : List Peer)
    (htopo : ∀ a cs, topo a = some cs → ∀ c ∈ cs, c ∈ U) :
    ∀ (L : List Peer) (st : LookupAcc),
      LookupInv U st → L.Nodup → (∀ p ∈ L, p ∉ st.contacted) → (∀ p ∈ L, p ∈ U) →
      LookupInv U (probeRound selfId topo st L)
        ∧ (probeRound selfId topo st L).contacted.length
            = st.contacted.length + L.length := by
  intro L
  induction L with
  | nil => intro st hinv _ _ _; exact ⟨hinv, rfl⟩
  | cons p rest ih =>
    intro st hinv hnd hfresh hU
    obtain ⟨hpN, hcN, hpU, hcU⟩ := hinv
    have hpnc : p ∉ st.contacted := hfresh p (List.mem_cons_self p rest)
    have hcons : insertP st.contacted p = st.contacted ++ [p] := by
      rw [insertP, if_neg hpnc]
    have hcN' : (insertP st.contacted p).Nodup := insertP_nodup p hcN
    have hcU' : ∀ q ∈ insertP st.contacted p, q ∈ U := by
      intro q hq
      rcases mem_insertP.mp hq with h1 | h1
      · exact hcU q h1
      · exact h1 ▸ hU p (List.mem_cons_self p rest)
    have hclen : (insertP st.contacted p).length = st.contacted.length + 1 :=
      insertP_length_of_not_mem hpnc
    have hrestnd : rest.Nodup := (List.nodup_cons.mp hnd).2
    have hrestU : ∀ q ∈ rest, q ∈ U := fun q hq => hU q (List.mem_cons_of_mem p hq)
    have hrestfresh : ∀ q ∈ rest, q ∉ insertP st.contacted p := by
      intro q hq hqmem
      rcases mem_insertP.mp hqmem with h1 | h1
      · exact hfresh q (List.mem_cons_of_mem p hq) h1
      · exact (List.nodup_cons.mp hnd).1 (h1 ▸ hq)
    rw [probeRound]
    cases htp : topo p.2 with
    | none =>
      have hih := ih { peers := st.peers, contacted := insertP st.contacted p,
                       dead := insertP st.dead p, calls := st.calls ++ [p.2] }
        ⟨hpN, hcN', hpU, hcU'⟩ hrestnd hrestfresh hrestU
      refine ⟨hih.1, ?_⟩
      rw [hih.2]
      dsimp only
      simp only [hclen, List.length_cons]
      omega
    | some contacts =>
      have hpN2 : (addContacts selfId st.peers contacts).Nodup :=
        addContacts_nodup selfId contacts st.peers hpN
      have hpU2 : ∀ q ∈ addContacts selfId st.peers contacts, q ∈ U := by
        intro q hq
        rcases addContacts_mem selfId contacts st.peers q hq with h1 | h1
        · exact hpU q h1
        · exact htopo p.2 contacts htp q h1
      have hih := ih { peers := addContacts selfId st.peers contacts,
                       contacted := insertP st.contacted p,
                       dead := st.dead, calls := st.calls ++ [p.2] }
        ⟨hpN2, hcN', hpU2, hcU'⟩ hrestnd hrestfresh hrestU
      refine ⟨hih.1, ?_⟩
      rw [hih.2]
      dsimp only
      simp only [hclen, List.length_cons]
      omega

theorem mem_uncontactedOf {st : LookupAcc} {p : Peer} :
    p ∈ uncontactedOf st ↔ p ∈ st.peers ∧ p ∉ st.contacted := by
  simp [uncontactedOf, List.mem_filter]

theorem length_pos_of_isEmpty_eq_false {l : List Peer} (h : l.isEmpty = false) :
    0 < l.length := by
  cases l with
  | nil => cases h
  | cons x xs => simp

theorem nodup_subset_length_le {l l' : List Peer} (hd : l.Nodup) (hs : l ⊆ l') :
    l.length ≤ l'.length :=
  (hd.subperm hs).length_le

theorem lookupRound_spec (selfId alpha key : Nat) (topo : Addr → Option (List Peer))
    (U : List Peer) (halpha : 0 < alpha)
    (htopo : ∀ a cs, topo a = some cs → ∀ c ∈ cs, c ∈ U)
    (st : LookupAcc) (hinv : LookupInv U st)
    (hne : (uncontactedOf st).isEmpty = false) :
    LookupInv U (lookupRound selfId alpha key topo st)
      ∧ st.contacted.length < (lookupRound selfId alpha key topo st).contacted.length := by
  have hperm : List.Perm (sortByDistance key (uncontactedOf st)) (uncontactedOf st) :=
    List.perm_insertionSort _ _
  have huN : (uncontactedOf st).Nodup := hinv.1.filter _
  have hsN : (sortByDistance key (uncontactedOf st)).Nodup := hperm.nodup_iff.mpr huN
  have hcN : ((sortByDistance key (uncontactedOf st)).take alpha).Nodup :=
    hsN.sublist (List.take_sublist alpha _)
  have hcmem : ∀ p ∈ (sortByDistance key (uncontactedOf st)).take alpha,
      p ∈ uncontactedOf st := by
    intro p hp
    exact hperm.mem_iff.mp ((List.take_subset alpha _) hp)
  have hcfresh : ∀ p ∈ (sortByDistance key (uncontactedOf st)).take alpha,
      p ∉ st.contacted :=
    fun p hp => (mem_uncontactedOf.mp (hcmem p hp)).2
  have hcU : ∀ p ∈ (sortByDistance key (uncontactedOf st)).take alpha, p ∈ U :=
    fun p hp => hinv.2.2.1 p (mem_uncontactedOf.mp (hcmem p hp)).1
  have hlen : 0 < ((sortByDistance key (uncontactedOf st)).take alpha).length := by
    rw [List.length_take, hperm.length_eq]
    have := length_pos_of_isEmpty_eq_false hne
    omega
  have := probeRound_spec selfId topo U htopo
    ((sortByDistance key (uncontactedOf st)).take alpha) st hinv hcN hcfresh hcU
  refine ⟨this.1, ?_⟩
  rw [lookupRound] at *
  rw [this.2]
  omega

theorem lookupLoop_isSome (selfId alpha key : Nat) (topo : Addr → Option (List Peer))
    (U : List Peer) (halpha : 0 < alpha)
    (htopo : ∀ a cs, topo a = some cs → ∀ c ∈ cs, c ∈ U) :
    ∀ (fuel : Nat) (st : LookupAcc), LookupInv U st →
      U.length - st.contacted.length < fuel →
      (lookupLoop selfId alpha key topo fuel st).isSome = true := by
  intro fuel
  induction fuel with
  | zero => intro st _ hf; exact absurd hf (Nat.not_lt_zero _)
  | succ fuel ih =>
    intro st hinv hf
    rw [lookupLoop]
    split
    · rfl
    · next hne =>
      have hne' : (uncontactedOf st).isEmpty = false := by
        cases hB : (uncontactedOf st).isEmpty
        · rfl
        · exact absurd hB hne
      have hround := lookupRound_spec selfId alpha key topo U halpha htopo st hinv hne'
      have hbound : (lookupRound selfId alpha key topo st).contacted.length ≤ U.length :=
        nodup_subset_length_le hround.1.2.1 hround.1.2.2.2
      exact ih _ hround.1 (by omega)

/-- C8: for every finite topology of contact-list replies drawn from a
finite universe `U` (and any positive α), `lookup_node` terminates:
every loop iteration with an uncontacted candidate strictly grows the
contacted set, so with fuel exceeding `|U|` the loop exits once
`peers == contacted`, and the whole procedure returns. -/
theorem lookup_node_terminates (selfId alpha k hashed_key fuel : Nat)
    (closest : Nat → Except RTError (List Peer)) (topo : Addr → Option (List Peer))
    (U seeds : List Peer)
    (halpha : 0 < alpha)
    (hc : closest hashed_key = .ok seeds)
    (hseedsU : ∀ p ∈ seeds, p ∈ U)
    (htopo : ∀ a cs, topo a = some cs → ∀ c ∈ cs, c ∈ U)
    (hfuel : U.length < fuel) :
    (lookup_node fuel selfId alpha k closest topo hashed_key).isSome = true
    ∧ (∀ st : LookupAcc, LookupInv U st →
        (uncontactedOf st).isEmpty = false →
        st.contacted.length
          < (lookupRound selfId alpha hashed_key topo st).contacted.length) := by
  constructor
  · rw [lookup_node, hc]
    have hdN : ∀ (l : List Peer) (acc : List Peer), acc.Nodup → (l.foldl insertP acc).Nodup := by
      intro l
      induction l with
      | nil => intro acc h; exact h
      | cons x xs ih =>
        intro acc h
        exact ih _ (insertP_nodup x h)
    have hdU : ∀ (l : List Peer) (acc : List Peer), (∀ p ∈ l, p ∈ U) →
        (∀ p ∈ acc, p ∈ U) → ∀ p ∈ l.foldl insertP acc, p ∈ U := by
      intro l
      induction l with
      | nil => intro acc _ hacc; exact hacc
      | cons x xs ih =>
        intro acc hl hacc
        refine ih _ (fun p hp => hl p (List.mem_cons_of_mem x hp)) ?_
        intro p hp
        rcases mem_insertP.mp hp with h1 | h1
        · exact hacc p h1
        · exact h1 ▸ hl x (List.mem_cons_self x xs)
    dsimp only
    split
    · rfl
    · have hloop := lookupLoop_isSome selfId alpha hashed_key topo U halpha htopo fuel
        { peers := seeds.foldl insertP [], contacted := [], dead := [], calls := [] }
        ⟨hdN seeds [] List.nodup_nil, List.nodup_nil,
          hdU seeds [] hseedsU (by intro p hp; cases hp), by intro p hp; cases hp⟩
        (by simpa using hfuel)
      obtain ⟨st, hst⟩ := Option.isSome_iff_exists.mp hloop
      rw [hst]
      rfl
  · intro st hinv hne
    exact (lookupRound_spec selfId alpha hashed_key topo U halpha htopo st hinv hne).2

/-- Witness for C8: a single seed whose probe times out; the lookup
still terminates with fuel 2 > |U| = 1. -/
theorem lookup_node_terminates_witness :
    (lookup_node 2 9 3 20 (fun _ => .ok [(1, ("a", 1))]) (fun _ => none) 5).isSome = true :=
  (lookup_node_terminates 9 3 20 5 2 (fun _ => .ok [(1, ("a", 1))]) (fun _ => none)
    [(1, ("a", 1))] [(1, ("a", 1))] (by decide) rfl (by decide)
    (fun a cs h => nomatch h) (by decide)).1

theorem odContains_odDel (l : ODict α) (key : Nat) :
    odContains (odDel l key) key = false := by
  rw [odContains, odDel, List.any_eq_false]
  intro e he hc
  have h1 := (List.mem_filter.mp he).2
  have h2 : e.1 = key := by simpa using hc
  rw [h2] at h1
  simp at h1

theorem odSet_of_not_contains {l : ODict α} {key : Nat} (v : α)
    (h : odContains l key = false) : odSet l key v = l ++ [(key, v)] := by
  rw [odSet, h, if_neg Bool.false_ne_true]

theorem odSet_length_le (l : ODict α) (key : Nat) (v : α) :
    (odSet l key v).length ≤ l.length + 1 := by
  rw [odSet]
  split
  · simp
  · simp

theorem odContains_cons_eq_false {e : Nat × α} {es : ODict α} {key : Nat}
    (h : odContains (e :: es) key = false) :
    (e.1 == key) = false ∧ odContains es key = false := by
  rw [odContains, List.any_cons] at h
  exact ⟨by cases hB : (e.1 == key) <;> simp [hB] at h ⊢, by
    cases hB : List.any es (fun x => x.1 == key) <;> simp [hB] at h ⊢
    rw [odContains, hB]⟩

theorem odDel_length_lt {l : ODict α} {key : Nat} (h : odContains l key = true) :
    (odDel l key).length < l.length := by
  induction l with
  | nil => cases h
  | cons e es ih =>
    by_cases he : e.1 = key
    · have hbne : (e.1 != key) = false := by simp [he]
      rw [odDel, List.filter_cons, hbne, if_neg Bool.false_ne_true]
      have := List.length_filter_le (fun x => x.1 != key) es
      simp only [List.length_cons]
      omega
    · have hbne : (e.1 != key) = true := by simp [he]
      have hf : (e.1 == key) = false := by simp [he]
      rw [odContains, List.any_cons, hf, Bool.false_or] at h
      have h' : odContains es key = true := h
      have := ih h'
      rw [odDel, List.filter_cons, hbne, if_pos rfl]
      simp only [odDel] at this
      simp only [List.length_cons]
      omega

theorem odDel_eq_of_not_contains {l : ODict α} {key : Nat}
    (h : odContains l key = false) : odDel l key = l := by
  rw [odDel, List.filter_eq_self]
  intro e he
  rw [odContains, List.any_eq_false] at h
  have := h e he
  simpa using this

theorem odDel_length_of_nodup {l : ODict α} {key : Nat}
    (hnodup : (l.map Prod.fst).Nodup) (h : odContains l key = true) :
    (odDel l key).length + 1 = l.length := by
  induction l with
  | nil => cases h
  | cons e es ih =>
    rw [List.map_cons, List.nodup_cons] at hnodup
    by_cases he : e.1 = key
    · have hnc : odContains es key = false := by
        rw [odContains, List.any_eq_false]
        intro x hx hcx
        have hx1 : x.1 = key := by simpa using hcx
        exact hnodup.1 (List.mem_map.mpr ⟨x, hx, hx1.trans he.symm⟩)
      have hbne : (e.1 != key) = false := by simp [he]
      rw [odDel, List.filter_cons, hbne, if_neg Bool.false_ne_true]
      have hdel : odDel es key = es := odDel_eq_of_not_contains hnc
      simp only [odDel] at hdel
      rw [hdel]
      simp
    · have hbne : (e.1 != key) = true := by simp [he]
      have hf : (e.1 == key) = false := by simp [he]
      rw [odContains, List.any_cons, hf, Bool.false_or] at h
      have := ih hnodup.2 h
      rw [odDel, List.filter_cons, hbne, if_pos rfl]
      simp only [odDel] at this
      simp only [List.length_cons]
      omega

/-- A sequence of routing-table mutations. -/
inductive TableOp (α : Type) : Type where
  | update : Nat → α → TableOp α
  | forget : Nat → TableOp α

def applyOp (t : RoutingTable α) : TableOp α → Except RTError (RoutingTable α)
  | .update pid peer => t.update_peer pid peer
  | .forget pid => t.forget_peer pid

def applyOps : RoutingTable α → List (TableOp α) → Except RTError (RoutingTable α)
  | t, [] => .ok t
  | t, op :: ops =>
    match applyOp t op with
    | .error e => .error e
    | .ok t' => applyOps t' ops

/-- The k-bucket capacity invariant. -/
def BucketsBounded (t : RoutingTable α) : Prop :=
  ∀ b ∈ t.buckets, b.length ≤ t.k

theorem update_peer_preserves {α : Type} (t t' : RoutingTable α) (pid : Nat) (peer : α)
    (h : t.update_peer pid peer = .ok t') (hb : BucketsBounded t) :
    t'.k = t.k ∧ BucketsBounded t' := by
  rw [RoutingTable.update_peer] at h
  split at h
  · cases h
    exact ⟨rfl, hb⟩
  · split at h
    · cases h
    · split at h
      · rename_i bucket cache hbk hch
        have hbmem : bucket ∈ t.buckets := List.getElem?_mem hbk
        split at h
        · rename_i hpres
          cases h
          refine ⟨rfl, ?_⟩
          intro b hbm
          rcases List.mem_or_eq_of_mem_set hbm with h1 | h1
          · exact hb b h1
          · subst h1
            have h2 := odSet_length_le (odDel bucket pid) pid peer
            have h3 := odDel_length_lt hpres
            have h4 := hb bucket hbmem
            show _ ≤ t.k
            omega
        · split at h
          · rename_i hroom
            cases h
            refine ⟨rfl, ?_⟩
            intro b hbm
            rcases List.mem_or_eq_of_mem_set hbm with h1 | h1
            · exact hb b h1
            · subst h1
              have h2 := odSet_length_le bucket pid peer
              show _ ≤ t.k
              omega
          · cases h
            exact ⟨rfl, hb⟩
      · cases h

theorem forget_peer_preserves {α : Type} (t t' : RoutingTable α) (pid : Nat)
    (h : t.forget_peer pid = .ok t') (hb : BucketsBounded t) :
    t'.k = t.k ∧ BucketsBounded t' := by
  rw [RoutingTable.forget_peer] at h
  split at h
  · cases h
    exact ⟨rfl, hb⟩
  · split at h
    · cases h
    · split at h
      · rename_i bucket cache hbk hch
        have hbmem : bucket ∈ t.buckets := List.getElem?_mem hbk
        split at h
        · rename_i hpres
          split at h
          · rename_i repl hlast
            cases h
            refine ⟨rfl, ?_⟩
            intro b hbm
            rcases List.mem_or_eq_of_mem_set hbm with h1 | h1
            · exact hb b h1
            · subst h1
              have h2 := odSet_length_le (odDel bucket pid) repl.1 repl.2
              have h3 := odDel_length_lt hpres
              have h4 := hb bucket hbmem
              show _ ≤ t.k
              omega
          · cases h
            refine ⟨rfl, ?_⟩
            intro b hbm
            rcases List.mem_or_eq_of_mem_set hbm with h1 | h1
            · exact hb b h1
            · subst h1
              have h3 := odDel_length_lt hpres
              have h4 := hb bucket hbmem
              show _ ≤ t.k
              omega
        · cases h
          exact ⟨rfl, hb⟩
      · cases h

theorem applyOps_preserves {α : Type} (ops : List (TableOp α)) :
    ∀ t t' : RoutingTable α, applyOps t ops = .ok t' → BucketsBounded t →
      t'.k = t.k ∧ BucketsBounded t' := by
  induction ops with
  | nil =>
    intro t t' h hb
    cases h
    exact ⟨rfl, hb⟩
  | cons op ops ih =>
    intro t t' h hb
    rw [applyOps] at h
    split at h
    · cases h
    · rename_i t1 hop
      have hstep : t1.k = t.k ∧ BucketsBounded t1 := by
        cases op with
        | update pid peer => exact update_peer_preserves t t1 pid peer hop hb
        | forget pid => exact forget_peer_preserves t t1 pid hop hb
      have := ih t1 t' h hstep.2
      exact ⟨this.1.trans hstep.1, this.2⟩

/-- C4: starting from a fresh routing table, no sequence of `update_peer`
and `forget_peer` operations ever makes a bucket hold more than k
entries; and when a bucket is at capacity k, `update_peer` with an
identifier not in that bucket leaves every bucket unchanged and appends
the identifier at the tail of that bucket's replacement cache. -/
theorem bucket_capacity_invariant {α : Type} :
    (∀ (idn k : Nat) (ops : List (TableOp α)) (t : RoutingTable α),
        applyOps (mkRoutingTable α idn k) ops = .ok t →
        ∀ b ∈ t.buckets, b.length ≤ k)
    ∧ (∀ (t : RoutingTable α) (pid : Nat) (peer : α) (bi : Nat) (bucket cache : ODict α),
        pid ≠ t.node_identifier →
        t.bucket_index pid = .ok bi →
        t.buckets[bi]? = some bucket →
        t.replacement_caches[bi]? = some cache →
        bucket.length = t.k →
        odContains bucket pid = false →
        ∃ t', t.update_peer pid peer = .ok t'
          ∧ t'.buckets = t.buckets
          ∧ t'.replacement_caches[bi]?
              = some (odSet (if odContains cache pid then odDel cache pid else cache) pid peer)
          ∧ (odSet (if odContains cache pid then odDel cache pid else cache) pid peer).getLast?
              = some (pid, peer)) := by
  constructor
  · intro idn k ops t h b hbm
    have hb0 : BucketsBounded (mkRoutingTable α idn k) := by
      intro b hb
      rw [mkRoutingTable] at hb
      have := List.eq_of_mem_replicate hb
      subst this
      simp
    have := applyOps_preserves ops (mkRoutingTable α idn k) t h hb0
    have hk : t.k = k := this.1
    have := this.2 b hbm
    omega
  · intro t pid peer bi bucket cache hne hidx hbk hch hfull hnew
    have hlt : bi < t.replacement_caches.length := by
      rcases List.getElem?_eq_some_iff.mp hch with ⟨hl, _⟩
      exact hl
    have habsent : odContains (if odContains cache pid then odDel cache pid else cache) pid = false := by
      split
    -- in both branches pid is absent
      · exact odContains_odDel cache pid
      · next hc =>
        cases hB : odContains cache pid
        · rfl
        · exact absurd hB hc
    refine ⟨{ t with replacement_caches := t.replacement_caches.set bi (odSet (if odContains cache pid then odDel cache pid else cache) pid peer) }, ?_, rfl, ?_, ?_⟩
    · rw [RoutingTable.update_peer, if_neg hne, hidx]
      dsimp only
      rw [hbk, hch]
      dsimp only
      rw [hnew, if_neg Bool.false_ne_true, if_neg (by omega)]
    · show (t.replacement_caches.set bi _)[bi]? = _
      rw [List.getElem?_set_self hlt]
    · rw [odSet_of_not_contains peer habsent, List.getLast?_concat]

/-- C6: `forget_peer` on an identifier present in its bucket removes
exactly that entry (the bucket shrinks by one before promotion), promotes
only the most recently inserted replacement-cache entry — appended at the
bucket's tail — when the cache is non-empty, and is a no-op on an absent
identifier. -/
theorem forget_peer_behavior {α : Type} (t : RoutingTable α) (pid : Nat) (bi : Nat)
    (bucket cache : ODict α)
    (hne : pid ≠ t.node_identifier)
    (hidx : t.bucket_index pid = .ok bi)
    (hbk : t.buckets[bi]? = some bucket)
    (hch : t.replacement_caches[bi]? = some cache)
    (hnodup : (bucket.map Prod.fst).Nodup)
    (hdisj : ∀ e ∈ cache, e.1 ∉ bucket.map Prod.fst) :
    (odContains bucket pid = true →
      ∃ t', t.forget_peer pid = .ok t'
        ∧ t'.buckets[bi]? = some (odDel bucket pid ++ cache.getLast?.toList)
        ∧ (odDel bucket pid).length + 1 = bucket.length
        ∧ (∀ e ∈ bucket, e.1 ≠ pid → e ∈ odDel bucket pid)
        ∧ t'.replacement_caches[bi]? = some cache.dropLast)
    ∧ (odContains bucket pid = false → t.forget_peer pid = .ok t) := by
  have hltb : bi < t.buckets.length := by
    rcases List.getElem?_eq_some_iff.mp hbk with ⟨hl, _⟩
    exact hl
  have hltc : bi < t.replacement_caches.length := by
    rcases List.getElem?_eq_some_iff.mp hch with ⟨hl, _⟩
    exact hl
  constructor
  · intro hpres
    have hretain : ∀ e ∈ bucket, e.1 ≠ pid → e ∈ odDel bucket pid := by
      intro e he hene
      rw [odDel, List.mem_filter]
      exact ⟨he, by simpa using hene⟩
    cases hlast : cache.getLast? with
    | none =>
      have hcache_nil : cache = [] := List.getLast?_eq_none_iff.mp hlast
      refine ⟨{ t with buckets := t.buckets.set bi (odDel bucket pid) }, ?_, ?_, ?_, hretain, ?_⟩
      · rw [RoutingTable.forget_peer, if_neg hne, hidx]
        dsimp only
        rw [hbk, hch]
        dsimp only
        rw [hpres, if_pos rfl, hlast]
      · rw [List.getElem?_set_self hltb]
        simp
      · exact odDel_length_of_nodup hnodup hpres
      · rw [hch, hcache_nil]
        rfl
    | some repl =>
      have hreplmem : repl ∈ cache := List.mem_of_getLast?_eq_some hlast
      have habsent : odContains (odDel bucket pid) repl.1 = false := by
        rw [odContains, List.any_eq_false]
        intro e he hc
        have h1 := (List.mem_filter.mp he).1
        have h2 : e.1 = repl.1 := by simpa using hc
        exact hdisj repl hreplmem (List.mem_map.mpr ⟨e, h1, h2⟩)
      refine ⟨{ t with buckets := t.buckets.set bi (odSet (odDel bucket pid) repl.1 repl.2)
                       replacement_caches := t.replacement_caches.set bi cache.dropLast },
        ?_, ?_, ?_, hretain, ?_⟩
      · rw [RoutingTable.forget_peer, if_neg hne, hidx]
        dsimp only
        rw [hbk, hch]
        dsimp only
        rw [hpres, if_pos rfl, hlast]
      · rw [List.getElem?_set_self hltb, odSet_of_not_contains repl.2 habsent]
        rfl
      · exact odDel_length_of_nodup hnodup hpres
      · rw [List.getElem?_set_self hltc]
  · intro habs
    rw [RoutingTable.forget_peer, if_neg hne, hidx]
    dsimp only
    rw [hbk, hch]
    dsimp only
    rw [habs, if_neg Bool.false_ne_true]

/-- A table with `self = 0, k = 1` whose bucket 158 is full with id 2. -/
def fullBucketTable : RoutingTable String :=
  insertAll (mkRoutingTable String 0 1) [(2, "a")]

/-- The same table after also seeing id 3: 3 overflows to the
replacement cache of bucket 158. -/
def fullBucketTable' : RoutingTable String :=
  insertAll (mkRoutingTable String 0 1) [(2, "a"), (3, "b")]

/-- The table after `forget_peer(2)` promotes the cached peer 3. -/
def promotedTable : RoutingTable String :=
  (fullBucketTable'.forget_peer 2).toOption.getD fullBucketTable'

set_option maxRecDepth 1000000 in
/-- Witness for C4: with k = 1, after inserting 2 then 3 (same bucket
158), every bucket respects the bound, the full bucket is unchanged by
the second insert, and 3 sits at the tail of the replacement cache. -/
theorem bucket_capacity_invariant_witness :
    ([((2 : Nat), "a")] : ODict String).length ≤ 1
    ∧ fullBucketTable.update_peer 3 "b" = .ok fullBucketTable'
    ∧ fullBucketTable'.buckets = fullBucketTable.buckets
    ∧ fullBucketTable'.replacement_caches[(158 : Nat)]?
        = some (odSet (if odContains ([] : ODict String) 3 then odDel ([] : ODict String) 3 else ([] : ODict String)) 3 "b")
    ∧ (odSet (if odContains ([] : ODict String) 3 then odDel ([] : ODict String) 3 else ([] : ODict String)) 3 "b").getLast?
        = some (3, "b") := by
  obtain ⟨t', h1, h2, h3, h4⟩ := bucket_capacity_invariant.2 fullBucketTable 3 "b" 158
    [(2, "a")] [] (by decide) (by decide) (by decide) (by decide) (by decide) (by decide)
  have heq : fullBucketTable.update_peer 3 "b" = .ok fullBucketTable' := by decide
  have ht : t' = fullBucketTable' := Except.ok.inj (h1.symm.trans heq)
  subst ht
  exact ⟨bucket_capacity_invariant.1 0 1 [TableOp.update 2 "a", TableOp.update 3 "b"]
    fullBucketTable' (by decide) [(2, "a")] (by decide), heq, h2, h3, h4⟩

set_option maxRecDepth 1000000 in
/-- Witness for C6: forgetting the present peer 2 removes it, promotes
the cached peer 3 to the bucket tail, and empties the cache. -/
theorem forget_peer_behavior_witness :
    odContains [((2 : Nat), "a")] 2 = true
    ∧ fullBucketTable'.forget_peer 2 = .ok promotedTable
    ∧ promotedTable.buckets[(158 : Nat)]?
        = some (odDel [((2 : Nat), "a")] 2 ++ (List.getLast? [((3 : Nat), "b")]).toList)
    ∧ (odDel [((2 : Nat), "a")] 2).length + 1 = ([((2 : Nat), "a")] : ODict String).length
    ∧ promotedTable.replacement_caches[(158 : Nat)]?
        = some (List.dropLast [((3 : Nat), "b")]) := by
  obtain ⟨t', h1, h2, h3, h4, h5⟩ := (forget_peer_behavior fullBucketTable' 2 158
    [(2, "a")] [(3, "b")]
    (by decide) (by decide) (by decide) (by decide) (by decide) (by decide)).1 (by decide)
  have heq : fullBucketTable'.forget_peer 2 = .ok promotedTable := by decide
  have ht : t' = promotedTable := Except.ok.inj (h1.symm.trans heq)
  subst ht
  exact ⟨by decide, heq, h2, h3, h5⟩

theorem xor_lt_two_pow {a b n : Nat} (ha : a < 2 ^ n) (hb : b < 2 ^ n) :
    a ^^^ b < 2 ^ n :=
  Nat.bitwise_lt ha hb

theorem filter_reverse_length {α : Type} (p : (Nat × α) → Bool) (l : List (Nat × α)) :
    (l.reverse.filter p).length = (l.filter p).length := by
  rw [List.filter_reverse, List.length_reverse]

theorem interleave_perm : ∀ (xs ys : List Nat), List.Perm (interleave xs ys) (xs ++ ys)
  | [], ys => by simp [interleave]
  | x :: xs, [] => by
    rw [interleave, List.append_nil]
    exact List.Perm.cons x (by simpa using interleave_perm xs [])
  | x :: xs, y :: ys => by
    rw [interleave]
    exact List.Perm.cons x
      ((List.Perm.cons y (interleave_perm xs ys)).trans List.perm_middle.symm)

theorem collectBucket_spec {α : Type} (ex : Option Nat) (k : Nat) :
    ∀ (entries : List (Nat × α)) (acc : List (Nat × α)),
      acc.length < k → (∀ e ∈ acc, isExcluded ex e.1 = false) →
      (collectBucket ex k acc entries).1.length
          = min k (acc.length + (entries.filter (fun e => !isExcluded ex e.1)).length)
        ∧ ((collectBucket ex k acc entries).2 = true
            ↔ (collectBucket ex k acc entries).1.length = k)
        ∧ (∀ e ∈ (collectBucket ex k acc entries).1, isExcluded ex e.1 = false) := by
  intro entries
  induction entries with
  | nil =>
    intro acc hacc hP
    rw [collectBucket]
    dsimp only
    refine ⟨by simp; omega, ?_, hP⟩
    constructor
    · intro h
      exact absurd h Bool.false_ne_true
    · intro h
      exact absurd h (by omega)
  | cons e rest ih =>
    intro acc hacc hP
    rw [collectBucket]
    cases hex : isExcluded ex e.1 with
    | true =>
      have hfc : List.filter (fun x => !isExcluded ex x.1) (e :: rest)
          = List.filter (fun x => !isExcluded ex x.1) rest := by
        rw [List.filter_cons, hex]
        simp
      rw [if_pos rfl, hfc]
      exact ih acc hacc hP
    | false =>
      have hfc : List.filter (fun x => !isExcluded ex x.1) (e :: rest)
          = e :: List.filter (fun x => !isExcluded ex x.1) rest := by
        rw [List.filter_cons, hex]
        simp
      have hP' : ∀ x ∈ acc ++ [e], isExcluded ex x.1 = false := by
        intro x hx
        rcases List.mem_append.mp hx with h1 | h1
        · exact hP x h1
        · have : x = e := by simpa using h1
          exact this ▸ hex
      rw [if_neg Bool.false_ne_true]
      dsimp only
      by_cases hl : (acc ++ [e]).length = k
      · rw [if_pos hl]
        refine ⟨?_, ?_, hP'⟩
        · rw [hfc]
          simp only [List.length_append, List.length_cons, List.length_singleton,
            List.length_nil] at hl ⊢
          omega
        · exact ⟨fun _ => hl, fun _ => rfl⟩
      · rw [if_neg hl]
        have hacc' : (acc ++ [e]).length < k := by
          simp only [List.length_append, List.length_singleton, List.length_cons,
            List.length_nil] at hl ⊢
          omega
        obtain ⟨ha, hb, hc⟩ := ih (acc ++ [e]) hacc' hP'
        refine ⟨?_, hb, hc⟩
        rw [ha, hfc]
        simp only [List.length_append, List.length_cons, List.length_singleton,
          List.length_nil]
        omega

theorem sweep_spec {α : Type} (bs : List (ODict α)) (ex : Option Nat) (k : Nat) (hk : 0 < k) :
    ∀ (L : List Nat) (acc : List (Nat × α)),
      acc.length < k → (∀ e ∈ acc, isExcluded ex e.1 = false) →
      (∀ i ∈ L, i < bs.length) →
      ∃ r, sweep bs ex k L acc = .ok r
        ∧ r.length = min k (acc.length
            + (L.map (fun i =>
                ((bs[i]?.getD []).filter (fun e => !isExcluded ex e.1)).length)).sum)
        ∧ (∀ e ∈ r, isExcluded ex e.1 = false) := by
  intro L
  induction L with
  | nil =>
    intro acc hacc hP _
    exact ⟨acc, rfl, by simp; omega, hP⟩
  | cons i L ih =>
    intro acc hacc hP hbnd
    have hi : i < bs.length := hbnd i (List.mem_cons_self i L)
    have hsome : bs[i]? = some bs[i] := List.getElem?_eq_getElem hi
    obtain ⟨h1, h2, h3⟩ := collectBucket_spec ex k (bs[i]).reverse acc hacc hP
    have hflen : ((bs[i]).reverse.filter (fun e => !isExcluded ex e.1)).length
        = ((bs[i]?.getD []).filter (fun e => !isExcluded ex e.1)).length := by
      rw [hsome, Option.getD_some, filter_reverse_length]
    rw [sweep, hsome]
    dsimp only
    rcases hcb : collectBucket ex k acc (bs[i]).reverse with ⟨acc2, d⟩
    rw [hcb] at h1 h2 h3
    dsimp only at h1 h2 h3
    cases d with
    | true =>
      have hlen2 : acc2.length = k := h2.mp rfl
      refine ⟨acc2, rfl, ?_, h3⟩
      rw [List.map_cons, List.sum_cons, ← hflen]
      omega
    | false =>
      have hlt2 : acc2.length < k := by
        have hne2 : acc2.length ≠ k := fun hcon => absurd (h2.mpr hcon) Bool.false_ne_true
        omega
      obtain ⟨r, hr1, hr2, hr3⟩ := ih acc2 hlt2 h3
        (fun j hj => hbnd j (List.mem_cons_of_mem i hj))
      refine ⟨r, hr1, ?_, hr3⟩
      rw [hr2, List.map_cons, List.sum_cons, ← hflen]
      omega

theorem range_map_getD_sum {β : Type} (d : β) (f : β → Nat) :
    ∀ l : List β,
      ((List.range l.length).map (fun i => f ((l[i]?).getD d))).sum = (l.map f).sum := by
  intro l
  induction l with
  | nil => rfl
  | cons x xs ih =>
    rw [List.length_cons, List.range_succ_eq_map, List.map_cons, List.map_map,
      List.map_cons, List.sum_cons, List.sum_cons]
    have hmap : (List.range xs.length).map ((fun i => f (((x :: xs)[i]?).getD d)) ∘ Nat.succ)
        = (List.range xs.length).map (fun i => f ((xs[i]?).getD d)) :=
      List.map_congr_left (fun i _ => by simp [Function.comp])
    rw [hmap, ih]
    simp

/-- The number of peers stored in the table whose identifier differs from
`excluding`. -/
def storedNonExcluded {α : Type} (t : RoutingTable α) (excluding : Option Nat) : Nat :=
  (t.buckets.map (fun b => (b.filter (fun e => !isExcluded excluding e.1)).length)).sum

/-- The one-peer table used to refute and witness C2: `self = 0, k = 5`,
single stored peer id 1. -/
def onePeerTable : RoutingTable String :=
  insertAll (mkRoutingTable String 0 5) [(1, "a")]

set_option maxRecDepth 1000000 in
/-- C2 counterexample: (i) with requested width `N = 0`, Python's
`k = k or self.k` silently falls back to `self.k = 5` and the call
returns one peer — more than `N`; (ii) with `excluding` equal to the only
stored peer and `N = 1`, the call returns no peers even though the table
stores one peer, violating the claimed lower bound `min(N, total) = 1`. -/
theorem find_closest_peers_bounds_cex :
    onePeerTable.find_closest_peers 2 none (some 0) = .ok [(1, "a")]
    ∧ onePeerTable.find_closest_peers 2 (some 1) (some 1) = .ok ([] : List (Nat × String))
    ∧ storedNonExcluded onePeerTable none = 1 :=
  ⟨by decide, by decide, by decide⟩

/-- C2 (amended): for every 160-bucket routing table, valid key distinct
from the node's identifier, excluding identifier, and requested width
N ≥ 1, `find_closest_peers(key, excluding, k=N)` returns at most N peers,
none equal to `excluding`, and at least `min(N, number of stored peers
with identifier ≠ excluding)` peers; a requested width of 0 is treated
like the default `self.k` (Python `k = k or self.k`). -/
theorem find_closest_peers_bounds {α : Type} (t : RoutingTable α) (key excluding n : Nat)
    (hlen : t.buckets.length = 160)
    (hself : t.node_identifier < 2 ^ 160)
    (hkey : key < 2 ^ 160) (hne : key ≠ t.node_identifier)
    (hn : 0 < n) :
    (∃ peers, t.find_closest_peers key (some excluding) (some n) = .ok peers
      ∧ peers.length ≤ n
      ∧ (∀ p ∈ peers, p.1 ≠ excluding)
      ∧ min n (storedNonExcluded t (some excluding)) ≤ peers.length)
    ∧ t.find_closest_peers key (some excluding) (some 0)
        = t.find_closest_peers key (some excluding) none := by
  constructor
  · have hdist : t.node_identifier ^^^ key ≠ 0 :=
      fun hc => hne (Nat.xor_eq_zero.mp hc).symm
    have hdlt : t.node_identifier ^^^ key < 2 ^ 160 := xor_lt_two_pow hself hkey
    have hbl1 : 1 ≤ bitLength (t.node_identifier ^^^ key) := bitLength_pos hdist
    have hbl160 : bitLength (t.node_identifier ^^^ key) ≤ 160 := bitLength_le hdlt
    have hidx : t.bucket_index key
        = .ok (160 - bitLength (t.node_identifier ^^^ key)) := by
      rw [RoutingTable.bucket_index, if_pos hkey]
      rfl
    have hbi : 160 - bitLength (t.node_identifier ^^^ key) ≤ 159 := by omega
    obtain ⟨m, rfl⟩ : ∃ m, n = m + 1 := ⟨n - 1, by omega⟩
    have hbnd : ∀ i ∈ interleave
        (fartherRange (160 - bitLength (t.node_identifier ^^^ key)))
        (closerRange (160 - bitLength (t.node_identifier ^^^ key))), i < t.buckets.length := by
      intro i hi
      rw [hlen]
      rcases List.mem_append.mp ((interleave_perm _ _).mem_iff.mp hi) with h1 | h1
      · rw [fartherRange, List.mem_reverse, List.mem_range] at h1
        omega
      · rw [closerRange] at h1
        rcases List.mem_range'.mp h1 with ⟨j, hj, rfl⟩
        omega
    obtain ⟨r, hr1, hr2, hr3⟩ := sweep_spec t.buckets (some excluding) (m + 1)
      (by omega) _ [] (by simp) (by intro e he; cases he) hbnd
    have hsum : ((interleave
          (fartherRange (160 - bitLength (t.node_identifier ^^^ key)))
          (closerRange (160 - bitLength (t.node_identifier ^^^ key)))).map (fun i =>
            ((t.buckets[i]?.getD []).filter
              (fun e => !isExcluded (some excluding) e.1)).length)).sum
        = storedNonExcluded t (some excluding) := by
      have hperm : List.Perm (interleave
            (fartherRange (160 - bitLength (t.node_identifier ^^^ key)))
            (closerRange (160 - bitLength (t.node_identifier ^^^ key))))
          (List.range 160) := by
        refine (interleave_perm _ _).trans ?_
        rw [fartherRange, closerRange]
        refine ((List.reverse_perm _).append_right _).trans ?_
        rw [List.range_eq_range']
        have happ := List.range'_append_1 0
          (160 - bitLength (t.node_identifier ^^^ key) + 1)
          (160 - (160 - bitLength (t.node_identifier ^^^ key) + 1))
        rw [Nat.zero_add] at happ
        rw [happ]
        have h160 : 160 - (160 - bitLength (t.node_identifier ^^^ key) + 1)
            + (160 - bitLength (t.node_identifier ^^^ key) + 1) = 160 := by omega
        rw [h160, List.range_eq_range' 160]
      rw [(hperm.map _).sum_eq, storedNonExcluded]
      have hconv := range_map_getD_sum ([] : ODict α)
        (fun b => (List.filter (fun e => !isExcluded (some excluding) e.1) b).length) t.buckets
      rw [hlen] at hconv
      exact hconv
    rw [hsum] at hr2
    refine ⟨r, ?_, by omega, ?_, by omega⟩
    · rw [RoutingTable.find_closest_peers, hidx]
      exact hr1
    · intro p hp
      have := hr3 p hp
      rw [isExcluded] at this
      simpa using this
  · rfl

set_option maxRecDepth 1000000 in
/-- Witness for the amended C2 at the one-peer table: key 2, excluding 9,
width 3. -/
theorem find_closest_peers_bounds_witness :
    onePeerTable.find_closest_peers 2 (some 9) (some 3) = .ok [(1, "a")]
    ∧ ([((1 : Nat), "a")] : List (Nat × String)).length ≤ 3
    ∧ (1 : Nat) ≠ 9
    ∧ min 3 (storedNonExcluded onePeerTable (some 9))
        ≤ ([((1 : Nat), "a")] : List (Nat × String)).length := by
  obtain ⟨⟨peers, h1, h2, h3, h4⟩, _⟩ := find_closest_peers_bounds onePeerTable 2 9 3
    (by decide) (by decide) (by decide) (by decide) (by decide)
  have heq : onePeerTable.find_closest_peers 2 (some 9) (some 3) = .ok [(1, "a")] := by decide
  have hp : peers = [(1, "a")] := Except.ok.inj (h1.symm.trans heq)
  subst hp
  exact ⟨heq, h2, h3 (1, "a") (by decide), h4⟩

end Kademlia
